import Mathlib

/-!
Shallow embedding of the redis benchmark program
src/python/redis-benchmark/benchmark.py.

The worker and coordinator logic is modelled as pure functions. The store
is modelled by an oracle giving, for each loop iteration of a worker, the
outcome of the set/get round trip of that iteration: either a raised store
error, or the retrieved value (possibly absent) together with the measured
latency of the round trip. Latencies and durations are modelled as
rationals. The random value suffix os.urandom(4).hex() and the measured
latencies are modelled as environment parameters. A second, stateful model
of the store (a finite map threaded through the run) is used for the claim
about a correctly behaving store.
-/

/-- Outcome of the redis calls of one iteration of the worker loop: either a
RedisError was raised somewhere in the try block, or both calls returned,
with r.get giving back `retrieved` (none models a missing key) and the two
perf counter readings giving `latency` milliseconds. -/
inductive StoreStep where
  | err : StoreStep
  | ok (retrieved : Option String) (latency : ℚ) : StoreStep
deriving DecidableEq

/-- The dict appended by run_worker to results_list:
id, ops (successful_ops) and latencies. -/
structure WorkerResult where
  id : Nat
  ops : Nat
  latencies : List ℚ
deriving DecidableEq, Repr

/-- The key built each iteration: the f-string worker-X-op-Y for
worker_id X and iteration i = Y. -/
def opKey (worker_id i : Nat) : String :=
  "worker-" ++ Nat.repr worker_id ++ "-op-" ++ Nat.repr i

/-- The value written each iteration: the f-string value-Y-S where Y is the
iteration index and S the random hex suffix. -/
def opValue (i : Nat) (suffix : String) : String :=
  "value-" ++ Nat.repr i ++ "-" ++ suffix

/-- One iteration of the for loop of run_worker, acting on the accumulator
(successful_ops, latencies). On a store error the accumulator is unchanged;
otherwise the success count and the latency list grow exactly when the
retrieved value equals the written value. -/
def workerStep (suffix : Nat → String) (store : Nat → StoreStep)
    (acc : Nat × List ℚ) (i : Nat) : Nat × List ℚ :=
  match store i with
  | StoreStep.err => acc
  | StoreStep.ok retrieved lat =>
      if retrieved = some (opValue i (suffix i)) then (acc.1 + 1, acc.2 ++ [lat])
      else acc

/-- The for i in range(operations) loop of run_worker. Python range over a
negative int is empty, which Int.toNat models exactly. -/
def workerLoop (suffix : Nat → String) (store : Nat → StoreStep)
    (operations : Int) : Nat × List ℚ :=
  (List.range operations.toNat).foldl (workerStep suffix store) (0, [])

/-- The run_worker function. The initial connection plus ping is modelled by
connectOk; on failure the worker appends the zero result and returns,
otherwise it runs the loop and appends its final result. The returned list
is the sequence of appends this worker performs on results_list. -/
def run_worker (worker_id : Nat) (connectOk : Bool) (suffix : Nat → String)
    (store : Nat → StoreStep) (operations : Int) : List WorkerResult :=
  if connectOk then
    let r := workerLoop suffix store operations
    [⟨worker_id, r.1, r.2⟩]
  else
    [⟨worker_id, 0, []⟩]

/-- The spawn and join of all workers in main: results_list after every
worker finished, with worker i given id i. Worker order in the list is one
serialization of the concurrent appends; the aggregation below is
order independent. -/
def mainRun (workers : Nat) (operations : Int) (connect : Nat → Bool)
    (suffix : Nat → Nat → String) (store : Nat → Nat → StoreStep) :
    List WorkerResult :=
  (List.range workers).foldl
    (fun acc i => acc ++ run_worker i (connect i) (suffix i) (store i) operations) []

/-- The aggregation loop of main: total_successful_ops. -/
def totalOps (rs : List WorkerResult) : Nat :=
  rs.foldl (fun acc r => acc + r.ops) 0

/-- The aggregation loop of main: all_latencies_ms. -/
def allLatencies (rs : List WorkerResult) : List ℚ :=
  rs.foldl (fun acc r => acc ++ r.latencies) []

/-- ops_per_second: initialised to 0 and only assigned when the duration is
positive. -/
def opsPerSecond (total : Nat) (duration : ℚ) : ℚ :=
  if 0 < duration then (total : ℚ) / duration else 0

/-- avg_latency_ms: initialised to 0, statistics.mean when the latency list
is nonempty. -/
def avgLatency (l : List ℚ) : ℚ :=
  if l = [] then 0 else l.sum / l.length

/-- min_latency_ms: initialised to 0, the builtin min of the list when it is
nonempty, which is a left fold of the binary min. -/
def minLatency : List ℚ → ℚ
  | [] => 0
  | x :: xs => xs.foldl min x

/-- max_latency_ms: initialised to 0, the builtin max of the list when it is
nonempty. -/
def maxLatency : List ℚ → ℚ
  | [] => 0
  | x :: xs => xs.foldl max x

/-- Abstract form of the print statements of the results block of main, one
constructor per print line, carrying the printed quantities. -/
inductive OutLine where
  | header : OutLine
  | totalOpsLine (n : Nat) : OutLine
  | totalTime (d : ℚ) : OutLine
  | opsPerSec (r : ℚ) : OutLine
  | avgLat (r : ℚ) : OutLine
  | numWorkers (n : Nat) : OutLine
  | minLat (r : ℚ) : OutLine
  | maxLat (r : ℚ) : OutLine
  | footer : OutLine
deriving DecidableEq

/-- The results block printed at the end of main: the min and max lines are
printed only when all_latencies_ms is nonempty. -/
def benchmarkResults (rs : List WorkerResult) (duration : ℚ) (workers : Nat) :
    List OutLine :=
  [OutLine.header,
   OutLine.totalOpsLine (totalOps rs),
   OutLine.totalTime duration,
   OutLine.opsPerSec (opsPerSecond (totalOps rs) duration),
   OutLine.avgLat (avgLatency (allLatencies rs)),
   OutLine.numWorkers workers]
  ++ (if allLatencies rs = [] then []
      else [OutLine.minLat (minLatency (allLatencies rs)),
            OutLine.maxLat (maxLatency (allLatencies rs))])
  ++ [OutLine.footer]

/-- SET on the stateful store model: the key now maps to the value, all
other keys are unchanged. -/
def storeSet (s : String → Option String) (k v : String) :
    String → Option String :=
  fun q => if q = k then some v else s q

/-- One iteration of the worker loop against the stateful store model in
which every call succeeds and GET returns the most recently SET value: the
iteration sets its key, then gets the same key from the updated store. -/
def runWorkerStoreStep (worker_id : Nat) (suffix : Nat → String)
    (lat : Nat → ℚ) (acc : (Nat × List ℚ) × (String → Option String))
    (i : Nat) : (Nat × List ℚ) × (String → Option String) :=
  let v := opValue i (suffix i)
  let s1 := storeSet acc.2 (opKey worker_id i) v
  if s1 (opKey worker_id i) = some v then
    ((acc.1.1 + 1, acc.1.2 ++ [lat i]), s1)
  else (acc.1, s1)

/-- The worker loop run against the stateful correct store model. The store
state is threaded through and returned. -/
def runWorkerStore (worker_id : Nat) (suffix : Nat → String) (lat : Nat → ℚ)
    (operations : Int) (s0 : String → Option String) :
    (Nat × List ℚ) × (String → Option String) :=
  (List.range operations.toNat).foldl (runWorkerStoreStep worker_id suffix lat)
    ((0, []), s0)

/-- All workers run against the stateful correct store, the state threaded
from worker to worker, returning the results list and the final store. -/
def mainRunStore (workers : Nat) (operations : Int)
    (suffix : Nat → Nat → String) (lat : Nat → Nat → ℚ)
    (s0 : String → Option String) :
    List WorkerResult × (String → Option String) :=
  (List.range workers).foldl
    (fun acc i =>
      let r := runWorkerStore i (suffix i) (lat i) operations acc.2
      (acc.1 ++ [⟨i, r.1.1, r.1.2⟩], r.2))
    ([], s0)

/-- Reference form of Nat.toDigits 10 by structural recursion on the number,
most significant digit first, used to reason about the decimal key strings. -/
def digitsRec (n : Nat) : List Char :=
  if _h : n < 10 then [Nat.digitChar n]
  else digitsRec (n / 10) ++ [Nat.digitChar (n % 10)]
decreasing_by exact Nat.div_lt_self (by omega) (by omega)

/-- Numeric value of a decimal digit character. -/
def digitVal (c : Char) : Nat := c.toNat - 48

/-- Decode a most significant digit first list of decimal digit
characters back into the number. -/
def decodeDigits (l : List Char) : Nat :=
  l.foldl (fun a c => a * 10 + digitVal c) 0

/-- Concrete value suffix environment used in witness instances. -/
def suffix0 : Nat → String := fun _ => "0a1b2c3d"

/-- Concrete store oracle raising a store error on every iteration. -/
def storeErr : Nat → StoreStep := fun _ => StoreStep.err

/-- Concrete store oracle answering every iteration with exactly the value
written for that iteration under suffix0. -/
def storeOk : Nat → StoreStep :=
  fun i => StoreStep.ok (some (opValue i (suffix0 i))) 1

/-- Concrete per worker suffix environment used in witness instances. -/
def suffix2 : Nat → Nat → String := fun _ _ => "0a1b2c3d"

/-- Concrete per worker store oracle raising an error on every iteration. -/
def store2 : Nat → Nat → StoreStep := fun _ _ => StoreStep.err

/-- Concrete connection outcome: every worker fails its ping. -/
def connectF : Nat → Bool := fun _ => false

/-- Concrete per worker latency environment used in witness instances. -/
def lat2 : Nat → Nat → ℚ := fun _ _ => 1

/-- Concrete results list used in witness instances. -/
def rs6 : List WorkerResult := [⟨0, 2, [3, 1]⟩]

/-! Helper lemmas about the worker loop accumulator. -/

lemma workerStep_cases (suffix : Nat → String) (store : Nat → StoreStep)
    (acc : Nat × List ℚ) (i : Nat) :
    workerStep suffix store acc i = acc ∨
    ∃ lat, workerStep suffix store acc i = (acc.1 + 1, acc.2 ++ [lat]) := by
  unfold workerStep
  cases h : store i with
  | err => exact Or.inl rfl
  | ok r lat =>
      by_cases hr : r = some (opValue i (suffix i))
      · exact Or.inr ⟨lat, by simp [hr]⟩
      · exact Or.inl (by simp [hr])

lemma workerFold_fst_le (suffix : Nat → String) (store : Nat → StoreStep) :
    ∀ (l : List Nat) (acc : Nat × List ℚ),
      (l.foldl (workerStep suffix store) acc).1 ≤ acc.1 + l.length := by
  intro l
  induction l with
  | nil => intro acc; simp
  | cons i t ih =>
      intro acc
      simp only [List.foldl_cons, List.length_cons]
      have h1 := ih (workerStep suffix store acc i)
      have h2 : (workerStep suffix store acc i).1 ≤ acc.1 + 1 := by
        rcases workerStep_cases suffix store acc i with h | ⟨lat, h⟩ <;> simp [h]
      omega

lemma workerFold_len (suffix : Nat → String) (store : Nat → StoreStep) :
    ∀ (l : List Nat) (acc : Nat × List ℚ),
      (l.foldl (workerStep suffix store) acc).2.length + acc.1
        = (l.foldl (workerStep suffix store) acc).1 + acc.2.length := by
  intro l
  induction l with
  | nil => intro acc; simp only [List.foldl_nil]; omega
  | cons i t ih =>
      intro acc
      simp only [List.foldl_cons]
      rcases workerStep_cases suffix store acc i with h | ⟨lat, h⟩
      · rw [h]
        have h1 := ih acc
        omega
      · rw [h]
        have h1 := ih (acc.1 + 1, acc.2 ++ [lat])
        simp only [List.length_append, List.length_cons, List.length_nil] at h1
        omega

lemma workerLoop_ops_le (suffix : Nat → String) (store : Nat → StoreStep)
    (M : Int) : (workerLoop suffix store M).1 ≤ M.toNat := by
  have h := workerFold_fst_le suffix store (List.range M.toNat) (0, [])
  simpa [workerLoop] using h

lemma workerLoop_len (suffix : Nat → String) (store : Nat → StoreStep)
    (M : Int) : (workerLoop suffix store M).2.length = (workerLoop suffix store M).1 := by
  have h := workerFold_len suffix store (List.range M.toNat) (0, [])
  simpa [workerLoop] using h

/-! Helper lemmas about the aggregation folds of main. -/

lemma foldl_ops_init (rs : List WorkerResult) :
    ∀ a : Nat, rs.foldl (fun acc r => acc + r.ops) a = a + totalOps rs := by
  induction rs with
  | nil => intro a; simp [totalOps]
  | cons r t ih =>
      intro a
      simp only [List.foldl_cons, totalOps]
      rw [ih (a + r.ops), ih (0 + r.ops)]
      omega

lemma totalOps_append (l1 l2 : List WorkerResult) :
    totalOps (l1 ++ l2) = totalOps l1 + totalOps l2 := by
  unfold totalOps
  rw [List.foldl_append, foldl_ops_init]
  rfl

lemma totalOps_single (r : WorkerResult) : totalOps [r] = r.ops := by
  simp [totalOps]

lemma foldl_lat_init (rs : List WorkerResult) :
    ∀ a : List ℚ, rs.foldl (fun acc r => acc ++ r.latencies) a = a ++ allLatencies rs := by
  induction rs with
  | nil => intro a; simp [allLatencies]
  | cons r t ih =>
      intro a
      simp only [List.foldl_cons, allLatencies]
      rw [ih (a ++ r.latencies), ih ([] ++ r.latencies)]
      simp

lemma allLatencies_append (l1 l2 : List WorkerResult) :
    allLatencies (l1 ++ l2) = allLatencies l1 ++ allLatencies l2 := by
  unfold allLatencies
  rw [List.foldl_append, foldl_lat_init]
  rfl

lemma allLatencies_single (r : WorkerResult) : allLatencies [r] = r.latencies := by
  simp [allLatencies]

lemma mainRun_succ (N : Nat) (operations : Int) (connect : Nat → Bool)
    (suffix : Nat → Nat → String) (store : Nat → Nat → StoreStep) :
    mainRun (N + 1) operations connect suffix store
      = mainRun N operations connect suffix store
        ++ run_worker N (connect N) (suffix N) (store N) operations := by
  unfold mainRun
  rw [List.range_succ, List.foldl_append]
  rfl

/-- C7: the reported operations per second equals total successful ops
divided by total duration when the duration is positive, is 0 whenever the
duration is nonpositive (the division is guarded), and is 0 whenever the
total successful op count is 0. -/
theorem opsPerSecond_spec (total : Nat) (duration : ℚ) :
    (0 < duration → opsPerSecond total duration = (total : ℚ) / duration) ∧
    (duration ≤ 0 → opsPerSecond total duration = 0) ∧
    (total = 0 → opsPerSecond total duration = 0) := by
  refine ⟨fun h => by simp [opsPerSecond, h],
          fun h => by simp [opsPerSecond, not_lt.mpr h], fun h => ?_⟩
  subst h
  by_cases hd : 0 < duration <;> simp [opsPerSecond, hd]

/-- Witness for C7 at total = 6, duration = 2 and duration = 0. -/
theorem opsPerSecond_spec_witness :
    (0 < (2 : ℚ) ∧ opsPerSecond 6 2 = (6 : ℚ) / 2) ∧
    ((0 : ℚ) ≤ 0 ∧ opsPerSecond 6 0 = 0) :=
  ⟨⟨by norm_num, (opsPerSecond_spec 6 2).1 (by norm_num)⟩,
   ⟨le_refl 0, (opsPerSecond_spec 6 0).2.1 (le_refl 0)⟩⟩

/-- C10: a negative or zero operations count makes the loop body run zero
times, so a worker with a successful connection reports the zero result,
exactly as for operations = 0, with no error. -/
theorem run_worker_nonpos_ops (worker_id : Nat) (suffix : Nat → String)
    (store : Nat → StoreStep) (M : Int) (hM : M ≤ 0) :
    run_worker worker_id true suffix store M = [⟨worker_id, 0, []⟩] ∧
    run_worker worker_id true suffix store M
      = run_worker worker_id true suffix store 0 := by
  have h : M.toNat = 0 := by omega
  constructor <;> simp [run_worker, workerLoop, h]

/-- Witness for C10 at operations = -5. -/
theorem run_worker_nonpos_ops_witness :
    (-5 : Int) ≤ 0 ∧ run_worker 0 true suffix0 storeErr (-5) = [⟨0, 0, []⟩] :=
  ⟨by decide, (run_worker_nonpos_ops 0 suffix0 storeErr (-5) (by decide)).1⟩

/-- C5: every worker appends exactly one result: on a failed ping the zero
result, otherwise the final result of its loop over all iterations. -/
theorem run_worker_single_append (worker_id : Nat) (connectOk : Bool)
    (suffix : Nat → String) (store : Nat → StoreStep) (M : Int) :
    (run_worker worker_id connectOk suffix store M).length = 1 ∧
    (connectOk = false →
      run_worker worker_id connectOk suffix store M = [⟨worker_id, 0, []⟩]) ∧
    (connectOk = true →
      run_worker worker_id connectOk suffix store M
        = [⟨worker_id, (workerLoop suffix store M).1,
            (workerLoop suffix store M).2⟩]) := by
  cases connectOk <;> simp [run_worker]

/-- Witness for C5 at a failed ping with 7 operations. -/
theorem run_worker_single_append_witness :
    (run_worker 3 false suffix0 storeErr 7).length = 1 ∧
    run_worker 3 false suffix0 storeErr 7 = [⟨3, 0, []⟩] :=
  ⟨(run_worker_single_append 3 false suffix0 storeErr 7).1,
   (run_worker_single_append 3 false suffix0 storeErr 7).2.1 rfl⟩

lemma run_worker_ops_le (worker_id : Nat) (connectOk : Bool)
    (suffix : Nat → String) (store : Nat → StoreStep) (M : Int) :
    totalOps (run_worker worker_id connectOk suffix store M) ≤ M.toNat := by
  cases connectOk <;> simp [run_worker, totalOps_single]
  exact workerLoop_ops_le suffix store M

lemma run_worker_latlen (worker_id : Nat) (connectOk : Bool)
    (suffix : Nat → String) (store : Nat → StoreStep) (M : Int) :
    (allLatencies (run_worker worker_id connectOk suffix store M)).length
      = totalOps (run_worker worker_id connectOk suffix store M) := by
  cases connectOk <;>
    simp [run_worker, totalOps_single, allLatencies_single, workerLoop_len]

lemma totalOps_mainRun_le (N : Nat) (M : Int) (connect : Nat → Bool)
    (suffix : Nat → Nat → String) (store : Nat → Nat → StoreStep) :
    totalOps (mainRun N M connect suffix store) ≤ N * M.toNat := by
  induction N with
  | zero => simp [mainRun, totalOps]
  | succ k ih =>
      rw [mainRun_succ, totalOps_append]
      have hw := run_worker_ops_le k (connect k) (suffix k) (store k) M
      calc totalOps (mainRun k M connect suffix store)
            + totalOps (run_worker k (connect k) (suffix k) (store k) M)
          ≤ k * M.toNat + M.toNat := Nat.add_le_add ih hw
        _ = (k + 1) * M.toNat := by ring

/-- C2: for every worker count N at least 1, every operations count M at
least 0 and every store behavior, the aggregated successful op total is at
most N times M. -/
theorem totalOps_le_bound (N : Nat) (M : Int) (connect : Nat → Bool)
    (suffix : Nat → Nat → String) (store : Nat → Nat → StoreStep)
    (hN : 1 ≤ N) (hM : 0 ≤ M) :
    (totalOps (mainRun N M connect suffix store) : Int) ≤ (N : Int) * M := by
  have h := totalOps_mainRun_le N M connect suffix store
  calc (totalOps (mainRun N M connect suffix store) : Int)
      ≤ ((N * M.toNat : Nat) : Int) := by exact_mod_cast h
    _ = (N : Int) * M := by
        rw [Nat.cast_mul, Int.toNat_of_nonneg hM]

/-- Witness for C2 at N = 1, M = 0 and every ping failing. -/
theorem totalOps_le_bound_witness :
    1 ≤ 1 ∧ (0 : Int) ≤ 0 ∧
    (totalOps (mainRun 1 0 connectF suffix2 store2) : Int) ≤ (1 : Int) * 0 :=
  ⟨le_refl 1, le_refl 0,
   totalOps_le_bound 1 0 connectF suffix2 store2 (le_refl 1) (le_refl 0)⟩

/-- C3: each worker result has as many latency samples as successful ops,
including the connection failure result, and the concatenated latency
sequence of the whole run has length equal to the successful op total. -/
theorem latency_count_eq_ops (worker_id : Nat) (connectOk : Bool)
    (suffix : Nat → String) (store : Nat → StoreStep) (M : Int)
    (N : Nat) (M2 : Int) (connect : Nat → Bool)
    (suffixA : Nat → Nat → String) (storeA : Nat → Nat → StoreStep) :
    (∀ r ∈ run_worker worker_id connectOk suffix store M,
      r.latencies.length = r.ops) ∧
    (allLatencies (mainRun N M2 connect suffixA storeA)).length
      = totalOps (mainRun N M2 connect suffixA storeA) := by
  constructor
  · intro r hr
    cases connectOk <;> simp [run_worker] at hr <;> subst hr
    · rfl
    · exact workerLoop_len suffix store M
  · induction N with
    | zero => simp [mainRun, totalOps, allLatencies]
    | succ k ih =>
        rw [mainRun_succ, totalOps_append, allLatencies_append,
            List.length_append, ih,
            run_worker_latlen k (connect k) (suffixA k) (storeA k) M2]

/-- Witness for C3 at a failed ping worker and a one worker run. -/
theorem latency_count_eq_ops_witness :
    (⟨3, 0, []⟩ : WorkerResult) ∈ run_worker 3 false suffix0 storeErr 2 ∧
    (⟨3, 0, []⟩ : WorkerResult).latencies.length
      = (⟨3, 0, []⟩ : WorkerResult).ops :=
  ⟨by decide,
   (latency_count_eq_ops 3 false suffix0 storeErr 2 1 0 connectF suffix2
      store2).1 ⟨3, 0, []⟩ (by decide)⟩

lemma runWorkerStoreStep_eq (worker_id : Nat) (suffix : Nat → String)
    (lat : Nat → ℚ) (acc : (Nat × List ℚ) × (String → Option String))
    (i : Nat) :
    runWorkerStoreStep worker_id suffix lat acc i
      = ((acc.1.1 + 1, acc.1.2 ++ [lat i]),
         storeSet acc.2 (opKey worker_id i) (opValue i (suffix i))) := by
  simp [runWorkerStoreStep, storeSet]

lemma storeFold_ops (worker_id : Nat) (suffix : Nat → String) (lat : Nat → ℚ) :
    ∀ (l : List Nat) (acc : (Nat × List ℚ) × (String → Option String)),
      (l.foldl (runWorkerStoreStep worker_id suffix lat) acc).1.1
        = acc.1.1 + l.length := by
  intro l
  induction l with
  | nil => intro acc; simp
  | cons i t ih =>
      intro acc
      simp only [List.foldl_cons, List.length_cons]
      rw [runWorkerStoreStep_eq]
      have h := ih ((acc.1.1 + 1, acc.1.2 ++ [lat i]),
        storeSet acc.2 (opKey worker_id i) (opValue i (suffix i)))
      simp at h
      omega

lemma runWorkerStore_ops (worker_id : Nat) (suffix : Nat → String)
    (lat : Nat → ℚ) (operations : Int) (s0 : String → Option String) :
    (runWorkerStore worker_id suffix lat operations s0).1.1
      = operations.toNat := by
  have h := storeFold_ops worker_id suffix lat (List.range operations.toNat)
    ((0, []), s0)
  simpa [runWorkerStore] using h

lemma mainRunStore_succ (N : Nat) (operations : Int)
    (suffix : Nat → Nat → String) (lat : Nat → Nat → ℚ)
    (s0 : String → Option String) :
    mainRunStore (N + 1) operations suffix lat s0
      = ((mainRunStore N operations suffix lat s0).1
          ++ [⟨N, (runWorkerStore N (suffix N) (lat N) operations
                    (mainRunStore N operations suffix lat s0).2).1.1,
                  (runWorkerStore N (suffix N) (lat N) operations
                    (mainRunStore N operations suffix lat s0).2).1.2⟩],
         (runWorkerStore N (suffix N) (lat N) operations
           (mainRunStore N operations suffix lat s0).2).2) := by
  unfold mainRunStore
  rw [List.range_succ, List.foldl_append]
  rfl

lemma totalOps_mainRunStore (N : Nat) (operations : Int)
    (suffix : Nat → Nat → String) (lat : Nat → Nat → ℚ)
    (s0 : String → Option String) :
    totalOps (mainRunStore N operations suffix lat s0).1
      = N * operations.toNat := by
  induction N with
  | zero => simp [mainRunStore, totalOps]
  | succ k ih =>
      rw [mainRunStore_succ, totalOps_append, ih, totalOps_single,
          runWorkerStore_ops]
      ring

/-- C1: when every store call succeeds and every GET returns the most
recently SET value for its key, the aggregated successful op total over N
workers of M operations each is exactly N times M, for N at least 1 and M
at least 0. -/
theorem totalOps_correct_store (N : Nat) (M : Int)
    (suffix : Nat → Nat → String) (lat : Nat → Nat → ℚ)
    (s0 : String → Option String) (hN : 1 ≤ N) (hM : 0 ≤ M) :
    (totalOps (mainRunStore N M suffix lat s0).1 : Int) = (N : Int) * M := by
  have h := totalOps_mainRunStore N M suffix lat s0
  calc (totalOps (mainRunStore N M suffix lat s0).1 : Int)
      = ((N * M.toNat : Nat) : Int) := by exact_mod_cast congrArg Nat.cast h
    _ = (N : Int) * M := by rw [Nat.cast_mul, Int.toNat_of_nonneg hM]

/-- Witness for C1 at N = 2 workers, M = 3 operations, the empty initial
store: the total is exactly 6. -/
theorem totalOps_correct_store_witness :
    1 ≤ 2 ∧ (0 : Int) ≤ 3 ∧
    (totalOps (mainRunStore 2 3 suffix2 lat2 (fun _ => none)).1 : Int)
      = (2 : Int) * 3 :=
  ⟨by omega, by omega,
   totalOps_correct_store 2 3 suffix2 lat2 (fun _ => none) (by omega) (by omega)⟩

/-- C4: an iteration is counted as successful exactly when the value read
back equals the written value; on a store error or a mismatch the iteration
leaves the accumulator unchanged, and the loop over n + 1 iterations is the
loop over n iterations followed by iteration n. -/
theorem workerStep_success_iff (suffix : Nat → String) (store : Nat → StoreStep)
    (i : Nat) (acc : Nat × List ℚ) :
    (store i = StoreStep.err → workerStep suffix store acc i = acc) ∧
    (∀ r lat, store i = StoreStep.ok r lat →
      (workerStep suffix store acc i = (acc.1 + 1, acc.2 ++ [lat]) ↔
        r = some (opValue i (suffix i)))) ∧
    (∀ r lat, store i = StoreStep.ok r lat → r ≠ some (opValue i (suffix i)) →
      workerStep suffix store acc i = acc) ∧
    (∀ n : Nat, workerLoop suffix store ((n : Int) + 1)
      = workerStep suffix store (workerLoop suffix store (n : Int)) n) := by
  refine ⟨fun h => by simp [workerStep, h], fun r lat h => ?_,
    fun r lat h hr => by simp [workerStep, h, hr], fun n => ?_⟩
  · by_cases hr : r = some (opValue i (suffix i))
    · simp [workerStep, h, hr]
    · simp only [workerStep, h, if_neg hr]
      constructor
      · intro heq
        have h1 := congrArg Prod.fst heq
        simp at h1
      · intro heq; exact absurd heq hr
  · have h1 : ((n : Int) + 1).toNat = n + 1 := by omega
    have h2 : ((n : Int)).toNat = n := by omega
    unfold workerLoop
    rw [h1, h2, List.range_succ, List.foldl_append]
    rfl

/-- Witness for C4 at iteration 0 of the always failing store and one loop
unfolding step. -/
theorem workerStep_success_iff_witness :
    workerStep suffix0 storeErr (0, []) 0 = (0, []) ∧
    workerLoop suffix0 storeErr ((0 : Int) + 1)
      = workerStep suffix0 storeErr (workerLoop suffix0 storeErr 0) 0 :=
  ⟨(workerStep_success_iff suffix0 storeErr 0 (0, [])).1 rfl,
   (workerStep_success_iff suffix0 storeErr 0 (0, [])).2.2.2 0⟩

/-! Order helpers for the latency statistics. -/

lemma foldl_min_le_init : ∀ (t : List ℚ) (x : ℚ), t.foldl min x ≤ x := by
  intro t
  induction t with
  | nil => intro x; simp
  | cons y s ih =>
      intro x
      simp only [List.foldl_cons]
      exact le_trans (ih (min x y)) (min_le_left x y)

lemma foldl_min_le_mem : ∀ (t : List ℚ) (x a : ℚ), a ∈ t → t.foldl min x ≤ a := by
  intro t
  induction t with
  | nil => intro x a ha; simp at ha
  | cons y s ih =>
      intro x a ha
      simp only [List.foldl_cons]
      rcases List.mem_cons.mp ha with h | h
      · subst h
        exact le_trans (foldl_min_le_init s (min x a)) (min_le_right x a)
      · exact ih (min x y) a h

lemma minLatency_le_mem (l : List ℚ) (a : ℚ) (ha : a ∈ l) : minLatency l ≤ a := by
  cases l with
  | nil => simp at ha
  | cons x xs =>
      rcases List.mem_cons.mp ha with h | h
      · subst h
        exact foldl_min_le_init xs a
      · exact foldl_min_le_mem xs x a h

lemma init_le_foldl_max : ∀ (t : List ℚ) (x : ℚ), x ≤ t.foldl max x := by
  intro t
  induction t with
  | nil => intro x; simp
  | cons y s ih =>
      intro x
      simp only [List.foldl_cons]
      exact le_trans (le_max_left x y) (ih (max x y))

lemma mem_le_foldl_max : ∀ (t : List ℚ) (x a : ℚ), a ∈ t → a ≤ t.foldl max x := by
  intro t
  induction t with
  | nil => intro x a ha; simp at ha
  | cons y s ih =>
      intro x a ha
      simp only [List.foldl_cons]
      rcases List.mem_cons.mp ha with h | h
      · subst h
        exact le_trans (le_max_right x a) (init_le_foldl_max s (max x a))
      · exact ih (max x y) a h

lemma mem_le_maxLatency (l : List ℚ) (a : ℚ) (ha : a ∈ l) : a ≤ maxLatency l := by
  cases l with
  | nil => simp at ha
  | cons x xs =>
      rcases List.mem_cons.mp ha with h | h
      · subst h
        exact init_le_foldl_max xs a
      · exact mem_le_foldl_max xs x a h

lemma mul_length_le_sum : ∀ (l : List ℚ) (m : ℚ), (∀ a ∈ l, m ≤ a) →
    m * l.length ≤ l.sum := by
  intro l
  induction l with
  | nil => intro m _; simp
  | cons x t ih =>
      intro m h
      have hx : m ≤ x := h x (List.mem_cons_self x t)
      have ht := ih m (fun a ha => h a (List.mem_cons_of_mem x ha))
      simp only [List.sum_cons, List.length_cons]
      push_cast
      rw [mul_add, mul_one]
      linarith

lemma sum_le_mul_length : ∀ (l : List ℚ) (m : ℚ), (∀ a ∈ l, a ≤ m) →
    l.sum ≤ m * l.length := by
  intro l
  induction l with
  | nil => intro m _; simp
  | cons x t ih =>
      intro m h
      have hx : x ≤ m := h x (List.mem_cons_self x t)
      have ht := ih m (fun a ha => h a (List.mem_cons_of_mem x ha))
      simp only [List.sum_cons, List.length_cons]
      push_cast
      rw [mul_add, mul_one]
      linarith

/-- C6: whenever the concatenated latency sequence is nonempty, the computed
statistics satisfy min at most mean and mean at most max. -/
theorem min_le_avg_le_max (rs : List WorkerResult)
    (h : allLatencies rs ≠ []) :
    minLatency (allLatencies rs) ≤ avgLatency (allLatencies rs) ∧
    avgLatency (allLatencies rs) ≤ maxLatency (allLatencies rs) := by
  have hlen : 0 < ((allLatencies rs).length : ℚ) := by
    have h0 : 0 < (allLatencies rs).length := List.length_pos.mpr h
    exact_mod_cast h0
  rw [avgLatency, if_neg h]
  constructor
  · rw [le_div_iff₀ hlen]
    exact mul_length_le_sum (allLatencies rs) (minLatency (allLatencies rs))
      (fun a ha => minLatency_le_mem (allLatencies rs) a ha)
  · rw [div_le_iff₀ hlen]
    exact sum_le_mul_length (allLatencies rs) (maxLatency (allLatencies rs))
      (fun a ha => mem_le_maxLatency (allLatencies rs) a ha)

/-- Witness for C6 at a single worker result with latencies 3 and 1. -/
theorem min_le_avg_le_max_witness :
    allLatencies rs6 ≠ [] ∧
    (minLatency (allLatencies rs6) ≤ avgLatency (allLatencies rs6) ∧
     avgLatency (allLatencies rs6) ≤ maxLatency (allLatencies rs6)) :=
  ⟨by decide, min_le_avg_le_max rs6 (by decide)⟩

lemma mainRun_one_zero (connect : Nat → Bool) (suffix : Nat → Nat → String)
    (store : Nat → Nat → StoreStep) :
    mainRun 1 0 connect suffix store = [⟨0, 0, []⟩] := by
  have h : List.range 1 = [0] := rfl
  cases hc : connect 0 <;>
    simp [mainRun, h, run_worker, workerLoop, hc]

/-- C8: the min and max latency lines appear in the printed results block
exactly when at least one latency sample exists, and the run with one
worker and zero operations prints the zero total and a block without min
and max lines. -/
theorem minmax_lines_iff (rs : List WorkerResult) (duration : ℚ)
    (workers : Nat) (connect : Nat → Bool) (suffix : Nat → Nat → String)
    (store : Nat → Nat → StoreStep) (d2 : ℚ) :
    ((∃ x, OutLine.minLat x ∈ benchmarkResults rs duration workers) ↔
      allLatencies rs ≠ []) ∧
    ((∃ x, OutLine.maxLat x ∈ benchmarkResults rs duration workers) ↔
      allLatencies rs ≠ []) ∧
    benchmarkResults (mainRun 1 0 connect suffix store) d2 1
      = [OutLine.header, OutLine.totalOpsLine 0, OutLine.totalTime d2,
         OutLine.opsPerSec (opsPerSecond 0 d2), OutLine.avgLat 0,
         OutLine.numWorkers 1, OutLine.footer] := by
  refine ⟨?_, ?_, ?_⟩
  · by_cases hl : allLatencies rs = [] <;> simp [benchmarkResults, hl]
  · by_cases hl : allLatencies rs = [] <;> simp [benchmarkResults, hl]
  · rw [mainRun_one_zero]
    simp [benchmarkResults, totalOps, allLatencies, avgLatency]

/-- Witness for C8: the run of one worker with two samples shows a min
line. -/
theorem minmax_lines_iff_witness :
    ∃ x, OutLine.minLat x ∈ benchmarkResults rs6 1 1 :=
  (minmax_lines_iff rs6 1 1 connectF suffix2 store2 1).1.mpr (by decide)

/-! Decimal digit string facts used for the key uniqueness claim. -/

lemma toDigitsCore_eq_digitsRec :
    ∀ (fuel n : Nat) (ds : List Char), n < fuel →
      Nat.toDigitsCore 10 fuel n ds = digitsRec n ++ ds := by
  intro fuel
  induction fuel with
  | zero => intro n ds h; omega
  | succ f ih =>
      intro n ds h
      simp only [Nat.toDigitsCore]
      by_cases h0 : n / 10 = 0
      · have hn : n < 10 := by omega
        rw [if_pos h0, digitsRec, dif_pos hn, Nat.mod_eq_of_lt hn]
        rfl
      · have hn : ¬ n < 10 := by omega
        rw [if_neg h0, ih (n / 10) _ (by omega)]
        conv_rhs => rw [digitsRec, dif_neg hn]
        simp [List.append_assoc]

lemma toDigits_eq_digitsRec (n : Nat) : Nat.toDigits 10 n = digitsRec n := by
  have h := toDigitsCore_eq_digitsRec (n + 1) n [] (by omega)
  simpa [Nat.toDigits] using h

lemma digitVal_digitChar (n : Nat) (h : n < 10) :
    digitVal (Nat.digitChar n) = n := by
  interval_cases n <;> decide

lemma digitChar_ne_dash (n : Nat) (h : n < 10) : Nat.digitChar n ≠ '-' := by
  interval_cases n <;> decide

lemma decode_append (l : List Char) (c : Char) :
    decodeDigits (l ++ [c]) = decodeDigits l * 10 + digitVal c := by
  unfold decodeDigits
  rw [List.foldl_append]
  rfl

lemma decode_digitsRec : ∀ n : Nat, decodeDigits (digitsRec n) = n := by
  intro n
  induction n using Nat.strong_induction_on with
  | _ n ih =>
      by_cases h : n < 10
      · rw [digitsRec, dif_pos h]
        simp [decodeDigits, digitVal_digitChar n h]
      · rw [digitsRec, dif_neg h, decode_append,
            ih (n / 10) (by omega), digitVal_digitChar (n % 10) (by omega)]
        omega

lemma digitsRec_ne_dash : ∀ (n : Nat), ∀ c ∈ digitsRec n, c ≠ '-' := by
  intro n
  induction n using Nat.strong_induction_on with
  | _ n ih =>
      intro c hc
      by_cases h : n < 10
      · rw [digitsRec, dif_pos h] at hc
        simp at hc
        subst hc
        exact digitChar_ne_dash n h
      · rw [digitsRec, dif_neg h] at hc
        rcases List.mem_append.mp hc with h1 | h1
        · exact ih (n / 10) (by omega) c h1
        · simp at h1
          subst h1
          exact digitChar_ne_dash (n % 10) (by omega)

lemma repr_data_eq (n : Nat) : (Nat.repr n).data = digitsRec n := by
  show (List.asString (Nat.toDigits 10 n)).data = digitsRec n
  rw [toDigits_eq_digitsRec]
  rfl

lemma repr_data_inj (a b : Nat) (h : (Nat.repr a).data = (Nat.repr b).data) :
    a = b := by
  rw [repr_data_eq, repr_data_eq] at h
  have h2 := congrArg decodeDigits h
  rwa [decode_digitsRec, decode_digitsRec] at h2

lemma repr_ne_dash (n : Nat) : ∀ c ∈ (Nat.repr n).data, c ≠ '-' := by
  rw [repr_data_eq]
  exact fun c hc => digitsRec_ne_dash n c hc

lemma append_dash_inj :
    ∀ (a a' t t' : List Char), (∀ c ∈ a, c ≠ '-') → (∀ c ∈ a', c ≠ '-') →
      a ++ '-' :: t = a' ++ '-' :: t' → a = a' ∧ t = t' := by
  intro a
  induction a with
  | nil =>
      intro a' t t' _ h' heq
      cases a' with
      | nil =>
          simp at heq
          exact ⟨rfl, heq⟩
      | cons c r =>
          simp at heq
          exact absurd heq.1.symm (h' c (List.mem_cons_self c r))
  | cons c r ih =>
      intro a' t t' h h' heq
      cases a' with
      | nil =>
          simp at heq
          exact absurd heq.1 (h c (List.mem_cons_self c r))
      | cons c' r' =>
          simp only [List.cons_append, List.cons.injEq] at heq
          obtain ⟨hc, hrest⟩ := heq
          obtain ⟨hr, ht⟩ := ih r' t t'
            (fun x hx => h x (List.mem_cons_of_mem c hx))
            (fun x hx => h' x (List.mem_cons_of_mem c' hx)) hrest
          exact ⟨by rw [hc, hr], ht⟩

/-- C9: the key built for an operation is a function of the worker id and
the iteration index, and the mapping from the pair to the key string
worker-X-op-Y is injective on pairs of natural numbers. -/
theorem opKey_injective :
    Function.Injective (fun p : Nat × Nat => opKey p.1 p.2) := by
  rintro ⟨a, b⟩ ⟨c, d⟩ h
  simp only [opKey] at h
  have hd := congrArg String.data h
  simp only [String.data_append, List.append_assoc] at hd
  have h1 := List.append_cancel_left hd
  have hx : ∀ x : List Char,
      (['-', 'o', 'p', '-'] : List Char) ++ x = '-' :: 'o' :: 'p' :: '-' :: x :=
    fun x => rfl
  rw [hx, hx] at h1
  obtain ⟨hac, hrest⟩ := append_dash_inj (Nat.repr a).data (Nat.repr c).data
    ('o' :: 'p' :: '-' :: (Nat.repr b).data)
    ('o' :: 'p' :: '-' :: (Nat.repr d).data)
    (repr_ne_dash a) (repr_ne_dash c) h1
  have hbd : (Nat.repr b).data = (Nat.repr d).data := by
    simpa using hrest
  have e1 : a = c := repr_data_inj a c hac
  have e2 : b = d := repr_data_inj b d hbd
  rw [e1, e2]

/-- Witness for C9 at the pair of worker id 1 and iteration 2. -/
theorem opKey_injective_witness : ((1, 2) : Nat × Nat) = (1, 2) :=
  @opKey_injective (1, 2) (1, 2) (by decide)
